import Mathlib

/-!
Shallow embedding of the conversational podcast host core:
the conversation state machine (`conversation_engine.py`), the history cap
(`config.MAX_HISTORY`), the LLM chat error recovery (`llm/llm.py`), the
sentence segmentation and speech pipeline (`tts/tts_engine.py`), and the
memory collaborator (`memory.py`).  Python strings are modelled as Lean
`String`/`List Char`; fallible external calls are modelled by explicit
outcome oracles.  Wall-clock timestamps and file/disk persistence are I/O
and are omitted from the state they decorate.
-/

/-- Python whitespace class (`str.strip`, regex `\s`) over the ASCII range. -/
def pySpace (c : Char) : Bool :=
  c = ' ' || c = '\t' || c = '\n' || c = '\x0d' || c = '\x0b' || c = '\x0c'

/-- Trim `pySpace` characters from both ends of a character list (Python `str.strip`). -/
def trimList (l : List Char) : List Char :=
  ((l.dropWhile pySpace).reverse.dropWhile pySpace).reverse

/-- Python `str.strip()`. -/
def pyStrip (s : String) : String := String.mk (trimList s.toList)

/-- Python slice `l[-n:]`: the last `n` elements (the whole list when shorter). -/
def takeLast (n : Nat) (l : List α) : List α := l.drop (l.length - n)

/-- Substring test, Python `sub in hay`. -/
def containsSub (hay sub : String) : Bool := decide (sub.toList <:+: hay.toList)

/-- The five conversation modes of `ConversationState` in `conversation_engine.py`. -/
inductive ConversationState where
  | INTRO
  | EXPLAIN
  | ASK
  | REACT
  | EXPAND
deriving DecidableEq

/-- The string value each state carries in the Python source. -/
def stateStr : ConversationState → String
  | .INTRO => "INTRO"
  | .EXPLAIN => "EXPLAIN"
  | .ASK => "ASK"
  | .REACT => "REACT"
  | .EXPAND => "EXPAND"

/-- A chat message `{"role": ..., "content": ...}`. -/
structure Message where
  role : String
  content : String
deriving DecidableEq

/-- The `Memory` collaborator (`memory.py`); timestamps and disk persistence
(`save`/`load`) are I/O and omitted, entries keep their payload fields. -/
structure Memory where
  topicsDiscussed : List String
  userOpinions : List (String × String)
  preferences : List (String × String)
  conversationCount : Nat
deriving DecidableEq

/-- The `Memory.add_topic` method: append the topic, keep the last 100. -/
def Memory.add_topic (m : Memory) (topic : String) : Memory :=
  { m with topicsDiscussed := takeLast 100 (m.topicsDiscussed ++ [topic]) }

/-- The opinion marker list of `Memory.extract_opinions_from_text`. -/
def opinionMarkers : List String :=
  ["i think", "i believe", "i love", "i hate", "i prefer",
   "i like", "i don\x27t like", "my opinion", "in my view",
   "honestly", "actually", "i feel", "i disagree", "i agree"]

/-- The `Memory.add_opinion` method: append the (topic, opinion) entry, keep the last 100. -/
def Memory.add_opinion (m : Memory) (topic opinion : String) : Memory :=
  { m with userOpinions := takeLast 100 (m.userOpinions ++ [(topic, opinion)]) }

/-- The `Memory.extract_opinions_from_text` heuristic: when the lowered text
contains any opinion marker, record the text as an opinion (once). -/
def Memory.extract_opinions_from_text (m : Memory) (text topic : String) : Memory :=
  if opinionMarkers.any (fun marker => containsSub text.toLower marker) then
    m.add_opinion topic text
  else m

/-- The `Memory.get_context_summary` digest used in the system prompt. -/
def Memory.get_context_summary (m : Memory) : String :=
  let parts : List String :=
    (if takeLast 5 m.topicsDiscussed ≠ [] then
      ["Recently discussed topics: " ++ String.intercalate ", " (takeLast 5 m.topicsDiscussed)]
     else []) ++
    (if takeLast 5 m.userOpinions ≠ [] then
      ["User opinions: " ++ String.intercalate "; "
        ((takeLast 5 m.userOpinions).map (fun o => o.1 ++ ": " ++ o.2))]
     else []) ++
    (if m.preferences ≠ [] then
      ["User preferences: " ++ String.intercalate ", "
        (m.preferences.map (fun p => p.1 ++ "=" ++ p.2))]
     else []) ++
    (if m.conversationCount > 0 then
      ["This is conversation session #" ++ toString (m.conversationCount + 1)]
     else [])
  String.intercalate "\n" parts

/-- The `ConversationEngine` instance state (`conversation_engine.py`). -/
structure ConversationEngine where
  state : ConversationState
  history : List Message
  current_topic : String
  topic_context : String
  turn_count : Nat
  memory : Option Memory
  silence_count : Nat
deriving DecidableEq

/-- Constructor `ConversationEngine.__init__(memory)`. -/
def mkEngine (memory : Option Memory) : ConversationEngine :=
  { state := .INTRO, history := [], current_topic := "", topic_context := "",
    turn_count := 0, memory := memory, silence_count := 0 }

/-- Method `ConversationEngine.set_topic(topic, context)`. -/
def ConversationEngine.set_topic (e : ConversationEngine) (topic context : String) :
    ConversationEngine :=
  { e with current_topic := topic, topic_context := context, state := .INTRO,
           turn_count := 0, memory := e.memory.map (fun m => m.add_topic topic) }

/-- The non-silence transition table of `ConversationEngine.advance_state`. -/
def nextState : ConversationState → ConversationState
  | .INTRO => .EXPLAIN
  | .EXPLAIN => .ASK
  | .ASK => .REACT
  | .REACT => .EXPAND
  | .EXPAND => .ASK

/-- Method `ConversationEngine.advance_state(user_input)`: bump the turn counter, track the
silence streak, force `ASK` when the streak reaches 2 (early return), otherwise apply
the transition table and run opinion extraction on non-empty input with a topic set. -/
def ConversationEngine.advance_state (e : ConversationEngine) (user_input : String) :
    ConversationEngine :=
  let e1 : ConversationEngine := { e with turn_count := e.turn_count + 1 }
  let e2 : ConversationEngine :=
    if pyStrip user_input = "" then { e1 with silence_count := e1.silence_count + 1 }
    else { e1 with silence_count := 0 }
  if e2.silence_count ≥ 2 then { e2 with state := .ASK, silence_count := 0 }
  else
    let e3 : ConversationEngine := { e2 with state := nextState e2.state }
    if e3.memory.isSome && (pyStrip user_input != "") && (e3.current_topic != "") then
      { e3 with memory := Option.map (fun m => m.extract_opinions_from_text user_input e3.current_topic) e3.memory }
    else e3

/-- Constant `config.MAX_HISTORY`. -/
def MAX_HISTORY : Nat := 20

/-- The body of `ConversationEngine.add_to_history`: append, then trim to the last
`MAX_HISTORY` entries (Python `self.history[-MAX_HISTORY:]`). -/
def addToHistoryList (h : List Message) (m : Message) : List Message :=
  if (h ++ [m]).length > MAX_HISTORY then takeLast MAX_HISTORY (h ++ [m]) else h ++ [m]

/-- Method `ConversationEngine.add_to_history(role, content)`. -/
def ConversationEngine.add_to_history (e : ConversationEngine) (role content : String) :
    ConversationEngine :=
  { e with history := addToHistoryList e.history ⟨role, content⟩ }

/-- Constant `config.SYSTEM_PROMPT` (verbatim, including the mojibake bytes of the source file). -/
def SYSTEM_PROMPT : String :=
  "You are a smart, energetic podcast host and driving companion.\n" ++
  "You never end conversations.\n" ++
  "You explain clearly.\n" ++
  "You ask engaging questions.\n" ++
  "You speak casually like a friend in a car.\n" ++
  "You use examples and stories.\n" ++
  "Keep responses concise â€” under 4 sentences unless explaining something complex.\n" ++
  "Always end with a question or invitation to continue."

/-- The `state_instructions` table of `ConversationEngine.get_system_prompt`. -/
def stateInstruction : ConversationState → String
  | .INTRO =>
      "You are starting a new topic. Introduce it with excitement and energy. " ++
      "Give a brief hook about why this is interesting. End with a question."
  | .EXPLAIN =>
      "Explain the current topic in a clear, simple way. " ++
      "Use analogies and real-world examples. Keep it conversational."
  | .ASK =>
      "Ask the user a thought-provoking question about the topic. " ++
      "Make it personal — \x27what do you think?\x27, \x27have you ever...?\x27"
  | .REACT =>
      "React to what the user just said. Show genuine interest. " ++
      "Build on their point. Add your perspective."
  | .EXPAND =>
      "Expand the discussion. Bring in a related angle, a counter-argument, " ++
      "or a fun fact. Keep the energy up."

/-- Method `ConversationEngine.get_system_prompt`. -/
def ConversationEngine.get_system_prompt (e : ConversationEngine) : String :=
  let prompt := SYSTEM_PROMPT ++ "\n\n" ++ "Current conversation state: " ++
    stateStr e.state ++ "\n" ++ stateInstruction e.state
  match e.memory with
  | some m =>
      let ctx := m.get_context_summary
      if ctx ≠ "" then prompt ++ "\n\nUser memory:\n" ++ ctx else prompt
  | none => prompt

/-- Function `build_messages` from `llm/llm.py`: system prompt, optional topic-context system
message, trimmed history, then the user message. -/
def build_messages (system_prompt : String) (history : List Message)
    (user_input : String) (topic_context : String) : List Message :=
  [⟨"system", system_prompt⟩] ++
  (if topic_context ≠ "" then
    [⟨"system", "Today\x27s discussion topic context:\n" ++ topic_context⟩]
   else []) ++
  takeLast MAX_HISTORY history ++ [⟨"user", user_input⟩]

/-- Method `ConversationEngine.process_turn(user_input)`. -/
def ConversationEngine.process_turn (e : ConversationEngine) (user_input : String) :
    List Message :=
  let ui := if pyStrip user_input = "" then
    "(The user is silent — prompt them with something interesting or ask a question)"
  else user_input
  build_messages e.get_system_prompt e.history ui e.topic_context

/-- Outcome oracle for one HTTP chat call to Ollama: the successful raw response
content, a `requests.ConnectionError`, a `requests.Timeout`, or any other exception. -/
inductive LLMOutcome where
  | ok (response : String)
  | connectionError
  | timeoutError
  | otherError
deriving DecidableEq

/-- Function `chat(messages)` from `llm/llm.py` (non-streaming path): strip the response
content on success; every caught exception is absorbed into a canned reply. -/
def chat (messages : List Message) (outcome : LLMOutcome) : String :=
  match outcome with
  | .ok response => pyStrip response
  | .connectionError => "Sorry, I can\x27t reach my brain right now. Is Ollama running?"
  | .timeoutError => "Hmm, that took too long. Let me try again."
  | .otherError => "I had a brain glitch. Let\x27s keep going though!"

/-- One normal voice-loop turn of `main.py` (advance, build messages, chat,
record both sides in history); returns the updated engine and the reply. -/
def runTurn (e : ConversationEngine) (user_text : String) (outcome : LLMOutcome) :
    ConversationEngine × String :=
  let e1 := e.advance_state user_text
  let messages := e1.process_turn user_text
  let reply := chat messages outcome
  let e2 := (e1.add_to_history "user" user_text).add_to_history "assistant" reply
  (e2, reply)

theorem dropWhile_length_le (p : α → Bool) (l : List α) :
    (l.dropWhile p).length ≤ l.length := by
  induction l with
  | nil => simp [List.dropWhile]
  | cons a t ih =>
    simp only [List.dropWhile_cons]
    split
    · exact Nat.le_succ_of_le ih
    · exact Nat.le_refl _


/-- Terminal sentence punctuation of the splitter regex `[.!?]`. -/
def isTerm (c : Char) : Bool := c = '.' || c = '!' || c = '?'

/-- Whether the head of a reversed accumulator is terminal punctuation
(the regex lookbehind `(?<=[.!?])`). -/
def headIsTerm : List Char → Bool
  | p :: _ => isTerm p
  | [] => false

/-- Embedding of `re.split(r'(?<=[.!?])\s+', text)`: scan left to right and, at a
whitespace character immediately preceded by terminal punctuation, end the current
piece and consume the whitespace run as the separator.  `acc` holds the current
piece reversed; `insep` records that the scan is inside a separator run (in which
case `acc` is empty). -/
def reSplitAux (cs acc : List Char) (insep : Bool) : List (List Char) :=
  match cs with
  | [] => [acc.reverse]
  | c :: rest =>
    if insep && pySpace c then reSplitAux rest acc insep
    else if pySpace c && headIsTerm acc then
      acc.reverse :: reSplitAux rest [] true
    else reSplitAux rest (c :: acc) false

/-- The pieces of `re.split(r'(?<=[.!?])\s+', text)`. -/
def reSplitPieces (cs : List Char) : List (List Char) := reSplitAux cs [] false

/-- The sentence-list stage of `split_by_sentence`: strip the text, split on
whitespace runs preceded by terminal punctuation, strip each piece, keep the
non-empty ones. -/
def sentencesOf (text : String) : List String :=
  ((((reSplitPieces (trimList text.toList)).map trimList).filter
      (fun p => p ≠ [])).map String.mk)

/-- The chunking loop of `split_by_sentence` with explicit fuel (always called
with fuel at least the list length, which suffices since each round consumes at
least one sentence): consecutive groups of `maxSentences` sentences joined with
single spaces.  Python `range` with step 0 raises `ValueError`; callers always
pass a positive count, and that unreachable case is modelled as `[]`. -/
def chunkJoinF (fuel maxSentences : Nat) (sentences : List String) : List String :=
  match fuel, sentences with
  | _, [] => []
  | 0, _ => []
  | fuel + 1, s :: rest =>
    if maxSentences = 0 then [] else
    String.intercalate " " ((s :: rest).take maxSentences) ::
      chunkJoinF fuel maxSentences ((s :: rest).drop maxSentences)

/-- The chunking loop of `split_by_sentence`. -/
def chunkJoin (maxSentences : Nat) (sentences : List String) : List String :=
  chunkJoinF sentences.length maxSentences sentences

/-- Function `split_by_sentence(text, max_sentences)` from `tts/tts_engine.py`. -/
def split_by_sentence (text : String) (max_sentences : Nat) : List String :=
  let sentences := sentencesOf text
  if sentences = [] then (if pyStrip text ≠ "" then [text] else [])
  else chunkJoin max_sentences sentences

/-- Substitution `re.sub(r'\*+', '', text)`: every run of asterisks is deleted, i.e. every
asterisk is deleted. -/
def removeStars (l : List Char) : List Char := l.filter (fun c => c ≠ '*')

/-- Scanner mode for `removeHashes`: copying normally, deleting a hash run, or
deleting the whitespace run that follows a hash run. -/
inductive HashMode where
  | norm
  | hash
  | wsphase
deriving DecidableEq

/-- Embedding of `re.sub(r'#+\s*', '', text)`: at a hash, delete the maximal hash
run and the following whitespace run (a hash met while deleting whitespace starts
the next match), otherwise copy the character. -/
def removeHashesAux (cs : List Char) (mode : HashMode) : List Char :=
  match cs with
  | [] => []
  | c :: rest =>
    match mode with
    | .norm =>
      if c = '#' then removeHashesAux rest .hash else c :: removeHashesAux rest .norm
    | .hash =>
      if c = '#' then removeHashesAux rest .hash
      else if pySpace c then removeHashesAux rest .wsphase
      else c :: removeHashesAux rest .norm
    | .wsphase =>
      if pySpace c then removeHashesAux rest .wsphase
      else if c = '#' then removeHashesAux rest .hash
      else c :: removeHashesAux rest .norm

/-- Substitution `re.sub(r'#+\s*', '', text)`. -/
def removeHashes (cs : List Char) : List Char := removeHashesAux cs .norm

/-- Attempt the markdown-link match `[^\]]+\]\([^)]+\)` at the position just after
an opening bracket; on success return the link text (the `\1` replacement) and the
remainder after the closing parenthesis. -/
def tryLink (rest : List Char) : Option (List Char × List Char) :=
  if (rest.takeWhile (fun c => c ≠ ']')).length = 0 then none else
  match rest.drop (rest.takeWhile (fun c => c ≠ ']')).length with
  | ']' :: '(' :: rest2 =>
    if (rest2.takeWhile (fun c => c ≠ ')')).length = 0 then none else
    match rest2.drop (rest2.takeWhile (fun c => c ≠ ')')).length with
    | ')' :: aft => some (rest.takeWhile (fun c => c ≠ ']'), aft)
    | _ => none
  | _ => none

theorem tryLink_length {rest : List Char} {p : List Char × List Char}
    (h : tryLink rest = some p) : p.2.length ≤ rest.length := by
  unfold tryLink at h
  split at h
  · exact absurd h (by simp)
  · split at h
    · rename_i rest2 heq
      split at h
      · exact absurd h (by simp)
      · split at h
        · rename_i rdrop aft heq2
          have h2 := congrArg List.length heq
          have h3 := congrArg List.length heq2
          simp only [List.length_drop, List.length_cons] at h2 h3
          cases h
          simp only
          omega
        · exact absurd h (by simp)
    · exact absurd h (by simp)

/-- Embedding of `re.sub(r'\[([^\]]+)\]\([^)]+\)', r'\1', text)` with explicit
fuel (always called with fuel at least the list length, which suffices since each
step consumes at least one character): markdown links are replaced by their link
text (the replacement is emitted, not re-scanned); on a failed match the bracket
is copied and scanning resumes at the next character. -/
def removeLinksF (fuel : Nat) (cs : List Char) : List Char :=
  match fuel, cs with
  | _, [] => []
  | 0, l => l
  | fuel + 1, c :: rest =>
    if c = '[' then
      match tryLink rest with
      | some (inner, aft) => inner ++ removeLinksF fuel aft
      | none => '[' :: removeLinksF fuel rest
    else c :: removeLinksF fuel rest

/-- Substitution `re.sub(r'\[([^\]]+)\]\([^)]+\)', r'\1', text)`. -/
def removeLinks (cs : List Char) : List Char := removeLinksF cs.length cs

/-- The backtick character (code point 96). -/
def btick : Char := Char.ofNat 96

/-- Embedding of inline-code removal (fuel as in `removeLinksF`): at a backtick,
the scan for the matching close runs over non-backtick characters, so when the
drop below is non-empty its head is necessarily the closing backtick and the
whole span is deleted; with no closing backtick the character is copied. -/
def removeCodeF (fuel : Nat) (cs : List Char) : List Char :=
  match fuel, cs with
  | _, [] => []
  | 0, l => l
  | fuel + 1, c :: rest =>
    if c = btick then
      match rest.drop (rest.takeWhile (fun d => d ≠ btick)).length with
      | _ :: aft => removeCodeF fuel aft
      | [] => btick :: removeCodeF fuel rest
    else c :: removeCodeF fuel rest

/-- Inline-code removal, the fourth cleanup of `_clean_for_speech`. -/
def removeCode (cs : List Char) : List Char := removeCodeF cs.length cs

/-- The four emoji code-point ranges removed by `_clean_for_speech`. -/
def isEmoji (c : Char) : Bool :=
  (0x1F600 ≤ c.toNat && c.toNat ≤ 0x1F64F) ||
  (0x1F300 ≤ c.toNat && c.toNat ≤ 0x1F5FF) ||
  (0x1F680 ≤ c.toNat && c.toNat ≤ 0x1F6FF) ||
  (0x1F1E0 ≤ c.toNat && c.toNat ≤ 0x1F1FF)

/-- Emoji removal (a single-character class, so a per-character filter). -/
def removeEmoji (l : List Char) : List Char := l.filter (fun c => !(isEmoji c))

/-- Substitution `re.sub(r'\s+', ' ', text)`: collapse every whitespace run to one space.
`inws` records that the scan is inside a whitespace run whose space has already
been emitted. -/
def collapseWsAux (cs : List Char) (inws : Bool) : List Char :=
  match cs with
  | [] => []
  | c :: rest =>
    if pySpace c then
      if inws then collapseWsAux rest true else ' ' :: collapseWsAux rest true
    else c :: collapseWsAux rest false

/-- Substitution `re.sub(r'\s+', ' ', text)`. -/
def collapseWs (cs : List Char) : List Char := collapseWsAux cs false

/-- Index of the last period in the list (`text.rfind('.', 0, n)` applied to a
prefix already cut to length `n`). -/
def rfindDot (cs : List Char) : Option Nat :=
  match cs with
  | [] => none
  | c :: rest =>
    match rfindDot rest with
    | some i => some (i + 1)
    | none => if c = '.' then some 0 else none

/-- The overlong-text truncation step of `_clean_for_speech`: text beyond 300
characters is cut at the last period inside the first 300 characters when that
period sits after position 100, otherwise hard-cut at 300 with a period appended. -/
def truncate300 (cs : List Char) : List Char :=
  if cs.length > 300 then
    match rfindDot (cs.take 300) with
    | some idx => if idx > 100 then cs.take (idx + 1) else cs.take 300 ++ ['.']
    | none => cs.take 300 ++ ['.']
  else cs

/-- The normalization stage of `_clean_for_speech`: markdown stripping, emoji
stripping, whitespace collapsing and stripping - everything before truncation. -/
def cleanNorm (s : String) : List Char :=
  trimList (collapseWs (removeEmoji (removeCode (removeLinks
    (removeHashes (removeStars s.toList))))))

/-- Function `_clean_for_speech(text)` from `tts/tts_engine.py`. -/
def cleanForSpeech (s : String) : String := String.mk (truncate300 (cleanNorm s))

/-- Playback trace of `speak_pipelined` over a finished sentence stream: records,
in order, the chunk index and cleaned text of every unit whose playback is
started.  `ok` is the synthesis oracle (success of `_synth_chunk` per chunk
index); `pending` mirrors the source's `pending` flag (whether some unit has been
admitted to playback). -/
def speakPipelinedPlays (ok : Nat → Bool) (sentences : List String)
    (chunkIdx : Nat) (pending : Bool) : List (Nat × String) :=
  match sentences with
  | [] => []
  | s :: rest =>
    let clean := cleanForSpeech s
    if clean = "" then speakPipelinedPlays ok rest chunkIdx pending
    else
      if pending = false then
        if ok chunkIdx then
          (chunkIdx, clean) :: speakPipelinedPlays ok rest (chunkIdx + 1) true
        else speakPipelinedPlays ok rest (chunkIdx + 1) false
      else
        if ok chunkIdx then
          (chunkIdx, clean) :: speakPipelinedPlays ok rest (chunkIdx + 1) true
        else speakPipelinedPlays ok rest (chunkIdx + 1) true

/-- Function `speak_pipelined(sentence_iter)`, projected to its playback trace. -/
def speak_pipelined (ok : Nat → Bool) (sentences : List String) : List (Nat × String) :=
  speakPipelinedPlays ok sentences 0 false

/-- The surviving units per the spec: of the units that clean to non-empty text
(indexed in chunk order), exactly those whose synthesis succeeds, in order. -/
def survivingUnits (ok : Nat → Bool) (sentences : List String) : List (Nat × String) :=
  (((sentences.map cleanForSpeech).filter (fun t => t ≠ "")).enum).filter
    (fun p => ok p.1)

/-- Whether a sentence boundary completes here: next character is whitespace or
the input ends. -/
def boundaryNext : List Char → Bool
  | [] => true
  | d :: _ => pySpace d

/-- Specification segmentation, following the spec's words: a sentence boundary is
a terminal punctuation mark followed by whitespace or end-of-input; a unit is the
text accumulated since the previous boundary up to and including the punctuation
(the boundary consumes the inter-unit whitespace, and units are trimmed per the
data model's "non-empty, trimmed" sentence units); empty or whitespace-only
candidate units are discarded silently; a trailing remainder is flushed as the
final unit.  `insep` records that the scan is consuming a boundary's whitespace. -/
def specScanAux (cs acc : List Char) (insep : Bool) : List (List Char) :=
  match cs with
  | [] => if trimList acc.reverse = [] then [] else [trimList acc.reverse]
  | c :: rest =>
    if insep && pySpace c then specScanAux rest acc insep
    else if isTerm c && boundaryNext rest then
      (if trimList (acc.reverse ++ [c]) = [] then []
       else [trimList (acc.reverse ++ [c])]) ++ specScanAux rest [] true
    else specScanAux rest (c :: acc) false

/-- The spec-side sentence unit list for a completed text stream. -/
def specUnits (text : String) : List String :=
  (specScanAux text.toList [] false).map String.mk

set_option maxRecDepth 8000

theorem takeLast_length_le (n : Nat) (l : List α) : (takeLast n l).length ≤ n := by
  simp only [takeLast, List.length_drop]
  omega

theorem takeLast_suffix (n : Nat) (l : List α) : takeLast n l <:+ l :=
  List.drop_suffix _ _

theorem takeLast_concat_getLast? (n : Nat) (hn : 0 < n) (l : List α) (a : α) :
    (takeLast n (l ++ [a])).getLast? = some a := by
  have hk : (l ++ [a]).length - n ≤ l.length := by
    simp only [List.length_append, List.length_singleton]
    omega
  rw [takeLast, List.drop_append_of_le_length hk, List.getLast?_concat]

theorem addToHistoryList_length (h : List Message) (m : Message)
    (hl : h.length ≤ MAX_HISTORY) : (addToHistoryList h m).length ≤ MAX_HISTORY := by
  unfold addToHistoryList
  split
  · exact takeLast_length_le _ _
  · omega

theorem addToHistoryList_suffix (h : List Message) (m : Message) :
    addToHistoryList h m <:+ h ++ [m] := by
  unfold addToHistoryList
  split
  · exact takeLast_suffix _ _
  · exact List.suffix_refl _

theorem addToHistoryList_getLast? (h : List Message) (m : Message) :
    (addToHistoryList h m).getLast? = some m := by
  unfold addToHistoryList
  split
  · exact takeLast_concat_getLast? _ (by norm_num [MAX_HISTORY]) _ _
  · exact List.getLast?_concat _

theorem isSuffix_append_right {l₁ l₂ : List α} (h : l₁ <:+ l₂) (t : List α) :
    l₁ ++ t <:+ l₂ ++ t := by
  obtain ⟨u, rfl⟩ := h
  exact ⟨u, by rw [List.append_assoc]⟩

theorem advance_state_silence (e : ConversationEngine) (input : String) :
    (e.advance_state input).silence_count =
      if pyStrip input = "" then
        (if 2 ≤ e.silence_count + 1 then 0 else e.silence_count + 1)
      else 0 := by
  unfold ConversationEngine.advance_state
  by_cases hs : pyStrip input = "" <;> simp only [hs, if_true, if_false, bne_iff_ne,
    ne_eq, not_true_eq_false, not_false_eq_true, and_true, and_false, ite_false,
    ite_true, ge_iff_le, if_neg, reduceIte, decide_not]
  · split
    · rfl
    · split <;> rfl
  · simp only [Nat.le_zero, OfNat.ofNat_ne_zero, if_false, reduceIte]
    split <;> rfl

theorem advance_state_state (e : ConversationEngine) (input : String) :
    (e.advance_state input).state =
      if pyStrip input = "" ∧ 2 ≤ e.silence_count + 1 then .ASK
      else nextState e.state := by
  unfold ConversationEngine.advance_state
  by_cases hs : pyStrip input = "" <;> simp only [hs, if_true, if_false, true_and,
    false_and, ite_false, ite_true, ge_iff_le, reduceIte]
  · split
    · rfl
    · split <;> rfl
  · simp only [Nat.le_zero, OfNat.ofNat_ne_zero, if_false, reduceIte]
    split <;> rfl

theorem advance_silence_le_one (e : ConversationEngine) (input : String) :
    (e.advance_state input).silence_count ≤ 1 := by
  rw [advance_state_silence]
  split
  · split <;> omega
  · omega

/-- C9: splitting the input "Hello world. How are you? Great!" with a grouping of
two sentences per unit yields exactly ["Hello world. How are you?", "Great!"]. -/
theorem C9_concrete_split :
    split_by_sentence "Hello world. How are you? Great!" 2 =
      ["Hello world. How are you?", "Great!"] := by decide

/-- C2: for every starting state with silence streak 0, two consecutive advances
on inputs that trim to empty leave the state equal to ASK and the streak 0. -/
theorem C2_two_empty_advances (e : ConversationEngine) (a b : String)
    (ha : pyStrip a = "") (hb : pyStrip b = "") (h0 : e.silence_count = 0) :
    ((e.advance_state a).advance_state b).state = .ASK ∧
    ((e.advance_state a).advance_state b).silence_count = 0 := by
  have h1 : (e.advance_state a).silence_count = 1 := by
    rw [advance_state_silence, if_pos ha, h0]
    norm_num
  constructor
  · rw [advance_state_state]
    exact if_pos ⟨hb, by rw [h1]⟩
  · rw [advance_state_silence, if_pos hb, h1]
    norm_num

/-- Witness for C2 at a concrete engine and the empty input. -/
theorem C2_two_empty_advances_witness :
    pyStrip "" = "" ∧ (mkEngine none).silence_count = 0 ∧
    (((mkEngine none).advance_state "").advance_state "").state = .ASK ∧
    (((mkEngine none).advance_state "").advance_state "").silence_count = 0 :=
  ⟨rfl, rfl, (C2_two_empty_advances (mkEngine none) "" "" rfl rfl rfl).1,
    (C2_two_empty_advances (mkEngine none) "" "" rfl rfl rfl).2⟩

/-- C4: per advance, the silence streak increases by exactly one on empty-trim
input while below the threshold, resets to zero on non-empty input, resets to
zero (with the forced ASK) when the incremented streak reaches 2, and over any
input sequence started at streak at most 1 it stays at most 1. -/
theorem C4_silence_streak_rules (e : ConversationEngine) (input : String) :
    ((pyStrip input = "" ∧ e.silence_count + 1 < 2) →
      (e.advance_state input).silence_count = e.silence_count + 1) ∧
    (pyStrip input ≠ "" → (e.advance_state input).silence_count = 0) ∧
    ((pyStrip input = "" ∧ 2 ≤ e.silence_count + 1) →
      (e.advance_state input).silence_count = 0 ∧
      (e.advance_state input).state = .ASK) ∧
    (∀ inputs : List String, e.silence_count ≤ 1 →
      (inputs.foldl ConversationEngine.advance_state e).silence_count ≤ 1) := by
  refine ⟨?_, ?_, ?_, ?_⟩
  · rintro ⟨hs, hlt⟩
    rw [advance_state_silence, if_pos hs, if_neg (by omega)]
  · intro hs
    rw [advance_state_silence, if_neg hs]
  · rintro ⟨hs, hge⟩
    rw [advance_state_silence, advance_state_state, if_pos hs, if_pos hge,
      if_pos ⟨hs, hge⟩]
    exact ⟨rfl, rfl⟩
  · intro inputs
    induction inputs generalizing e with
    | nil => exact fun h => h
    | cons i rest ih =>
      intro _
      exact ih (e.advance_state i) (advance_silence_le_one e i)

/-- Witness for C4 at a concrete engine and inputs. -/
theorem C4_silence_streak_rules_witness :
    pyStrip "hey" ≠ "" ∧ ((mkEngine none).advance_state "hey").silence_count = 0 ∧
    (pyStrip "" = "" ∧ (mkEngine none).silence_count + 1 < 2) ∧
    ((mkEngine none).advance_state "").silence_count = (mkEngine none).silence_count + 1 :=
  ⟨by decide, (C4_silence_streak_rules (mkEngine none) "hey").2.1 (by decide),
    ⟨rfl, by decide⟩, (C4_silence_streak_rules (mkEngine none) "").1 ⟨rfl, by decide⟩⟩

/-- C5: with non-empty input (and streak below the threshold) one advance applies
the fixed table Intro-Explain-Ask-React-Expand-Ask; iterating the table three
steps from ASK returns to ASK forever, and no state maps into INTRO. -/
theorem C5_nonSilence_transitions :
    (∀ (e : ConversationEngine) (input : String), pyStrip input ≠ "" →
      e.silence_count < 2 → (e.advance_state input).state = nextState e.state) ∧
    nextState .INTRO = .EXPLAIN ∧ nextState .EXPLAIN = .ASK ∧
    nextState .ASK = .REACT ∧ nextState .REACT = .EXPAND ∧
    nextState .EXPAND = .ASK ∧
    (∀ n : Nat, nextState^[3 * n] .ASK = .ASK) ∧
    (∀ s : ConversationState, nextState s ≠ .INTRO) := by
  refine ⟨?_, rfl, rfl, rfl, rfl, rfl, ?_, ?_⟩
  · intro e input hs _
    rw [advance_state_state, if_neg (by simp [hs])]
  · intro n
    induction n with
    | zero => rfl
    | succ k ih =>
      have h3 : 3 * (k + 1) = 3 * k + 3 := by ring
      rw [h3, Function.iterate_add_apply]
      have : nextState^[3] ConversationState.ASK = .ASK := rfl
      rw [this, ih]
  · intro s
    cases s <;> simp [nextState]

/-- Witness for C5 at a concrete engine and input. -/
theorem C5_nonSilence_transitions_witness :
    pyStrip "hi" ≠ "" ∧ (mkEngine none).silence_count < 2 ∧
    ((mkEngine none).advance_state "hi").state = nextState (mkEngine none).state :=
  ⟨by decide, by decide,
    C5_nonSilence_transitions.1 (mkEngine none) "hi" (by decide) (by decide)⟩

/-- C6: starting from a history within the cap, any number of additions keeps the
length within `MAX_HISTORY`, and the retained history is always a suffix of the
full appended sequence (oldest entries dropped first). -/
theorem C6_history_cap (h : List Message) (ms : List Message)
    (hlen : h.length ≤ MAX_HISTORY) :
    (ms.foldl addToHistoryList h).length ≤ MAX_HISTORY ∧
    (ms.foldl addToHistoryList h) <:+ (h ++ ms) := by
  induction ms generalizing h with
  | nil => exact ⟨hlen, by simp⟩
  | cons m rest ih =>
    obtain ⟨hl, hsuf⟩ := ih (addToHistoryList h m) (addToHistoryList_length h m hlen)
    refine ⟨hl, ?_⟩
    have h1 : addToHistoryList h m ++ rest <:+ (h ++ [m]) ++ rest :=
      isSuffix_append_right (addToHistoryList_suffix h m) rest
    have h2 : (h ++ [m]) ++ rest = h ++ (m :: rest) := by simp
    exact hsuf.trans (h2 ▸ h1)

/-- Witness for C6 at a concrete history and message list. -/
theorem C6_history_cap_witness :
    ([] : List Message).length ≤ MAX_HISTORY ∧
    (([⟨"user", "a"⟩] : List Message).foldl addToHistoryList []).length ≤ MAX_HISTORY :=
  ⟨by decide, (C6_history_cap [] [⟨"user", "a"⟩] (by decide)).1⟩

/-- C7: on a connection failure or timeout the chat call returns the canned
apology instead of raising; the engine state, turn count and silence streak after
the turn match those of any other outcome (the call leaves the conversation state
unchanged), and the turn still completes with the apology recorded in history. -/
theorem C7_chat_failure_recovery (msgs : List Message) (e : ConversationEngine)
    (input : String) (o : LLMOutcome) :
    chat msgs .connectionError =
      "Sorry, I can\x27t reach my brain right now. Is Ollama running?" ∧
    chat msgs .timeoutError = "Hmm, that took too long. Let me try again." ∧
    (runTurn e input .connectionError).1.state = (runTurn e input o).1.state ∧
    (runTurn e input .connectionError).1.turn_count = (runTurn e input o).1.turn_count ∧
    (runTurn e input .connectionError).1.silence_count =
      (runTurn e input o).1.silence_count ∧
    (runTurn e input .timeoutError).1.state = (runTurn e input o).1.state ∧
    (runTurn e input .timeoutError).1.turn_count = (runTurn e input o).1.turn_count ∧
    (runTurn e input .timeoutError).1.silence_count =
      (runTurn e input o).1.silence_count ∧
    ((runTurn e input .connectionError).1.history).getLast? =
      some ⟨"assistant", "Sorry, I can\x27t reach my brain right now. Is Ollama running?"⟩ ∧
    ((runTurn e input .timeoutError).1.history).getLast? =
      some ⟨"assistant", "Hmm, that took too long. Let me try again."⟩ := by
  have hstate : ∀ o' : LLMOutcome,
      (runTurn e input o').1.state = (e.advance_state input).state := by
    intro o'
    simp [runTurn, ConversationEngine.add_to_history]
  have hturn : ∀ o' : LLMOutcome,
      (runTurn e input o').1.turn_count = (e.advance_state input).turn_count := by
    intro o'
    simp [runTurn, ConversationEngine.add_to_history]
  have hsil : ∀ o' : LLMOutcome,
      (runTurn e input o').1.silence_count = (e.advance_state input).silence_count := by
    intro o'
    simp [runTurn, ConversationEngine.add_to_history]
  have hhist : ∀ o' : LLMOutcome, (runTurn e input o').1.history =
      addToHistoryList
        (addToHistoryList (e.advance_state input).history ⟨"user", input⟩)
        ⟨"assistant", chat ((e.advance_state input).process_turn input) o'⟩ := by
    intro o'
    simp [runTurn, ConversationEngine.add_to_history]
  refine ⟨rfl, rfl, ?_, ?_, ?_, ?_, ?_, ?_, ?_, ?_⟩
  · rw [hstate, hstate]
  · rw [hturn, hturn]
  · rw [hsil, hsil]
  · rw [hstate, hstate]
  · rw [hturn, hturn]
  · rw [hsil, hsil]
  · rw [hhist]
    exact addToHistoryList_getLast? _ _
  · rw [hhist]
    exact addToHistoryList_getLast? _ _

/-- Engine used in the C1 counterexample: a prior silence streak of 1. -/
def engineC1 : ConversationEngine :=
  { state := .EXPAND, history := [], current_topic := "ai", topic_context := "",
    turn_count := 7, memory := some ⟨["ai"], [], [], 3⟩, silence_count := 1 }

/-- C1 counterexample: `set_topic` does not clear the silence streak - from a
streak of 1 it stays 1, refuting the claim that it is reset to 0. -/
theorem C1_counterexample :
    ¬ ((engineC1.set_topic "space" "ctx").silence_count = 0) := by decide

/-- C1 amended: `set_topic` sets the state to INTRO, resets the turn count,
records topic and context, records the topic with the memory collaborator when
one is attached, and leaves the silence streak unchanged. -/
theorem C1_set_topic_amended (e : ConversationEngine) (topic context : String) :
    (e.set_topic topic context).state = .INTRO ∧
    (e.set_topic topic context).turn_count = 0 ∧
    (e.set_topic topic context).current_topic = topic ∧
    (e.set_topic topic context).topic_context = context ∧
    (e.set_topic topic context).silence_count = e.silence_count ∧
    (e.memory = none → (e.set_topic topic context).memory = none) ∧
    (∀ m, e.memory = some m →
      (e.set_topic topic context).memory = some (m.add_topic topic) ∧
      ((m.add_topic topic).topicsDiscussed).getLast? = some topic) := by
  refine ⟨rfl, rfl, rfl, rfl, rfl, ?_, ?_⟩
  · intro hm
    simp [ConversationEngine.set_topic, hm]
  · intro m hm
    refine ⟨by simp [ConversationEngine.set_topic, hm], ?_⟩
    exact takeLast_concat_getLast? _ (by norm_num) _ _

/-- Witness for C1's amended theorem at a concrete engine with a memory. -/
theorem C1_set_topic_amended_witness :
    engineC1.memory = some ⟨["ai"], [], [], 3⟩ ∧
    (engineC1.set_topic "space" "ctx").memory =
      some (Memory.add_topic ⟨["ai"], [], [], 3⟩ "space") ∧
    ((Memory.add_topic ⟨["ai"], [], [], 3⟩ "space").topicsDiscussed).getLast? =
      some "space" :=
  ⟨rfl, ((C1_set_topic_amended engineC1 "space" "ctx").2.2.2.2.2.2 _ rfl).1,
    ((C1_set_topic_amended engineC1 "space" "ctx").2.2.2.2.2.2 _ rfl).2⟩

theorem enumFrom_map_snd (n : Nat) (l : List α) :
    (l.enumFrom n).map Prod.snd = l := by
  induction l generalizing n with
  | nil => rfl
  | cons a t ih => simp [List.enumFrom, ih]

theorem enum_map_snd (l : List α) : (l.enum).map Prod.snd = l :=
  enumFrom_map_snd 0 l

theorem speakPipelinedPlays_eq (ok : Nat → Bool) (sentences : List String)
    (idx : Nat) (p : Bool) :
    speakPipelinedPlays ok sentences idx p =
      (((sentences.map cleanForSpeech).filter (fun t => t ≠ "")).enumFrom idx).filter
        (fun q => ok q.1) := by
  induction sentences generalizing idx p with
  | nil => rfl
  | cons s rest ih =>
    simp only [speakPipelinedPlays, List.map_cons]
    generalize cleanForSpeech s = c
    by_cases hc : c = ""
    · subst hc
      simp only [if_pos rfl, List.filter_cons, ne_eq, not_true_eq_false,
        decide_not, Bool.not_true, Bool.false_eq_true, if_false, reduceIte]
      simp only [ih]
      simp
    · rw [if_neg hc, List.filter_cons]
      have hdec : (fun t => decide ¬t = "") c = true := by simp [hc]
      rw [if_pos hdec]
      simp only [List.enumFrom, List.filter_cons, ih]
      cases p <;> by_cases hok : ok idx <;> simp [hok]

/-- C3: the playback trace of the pipelined speaker is exactly the failure-free
subsequence of the cleaned non-empty units, in their original relative order
(indexed in chunk order, so each unit is played at most once), and a failed unit
never blocks later units. -/
theorem C3_pipeline_skip_failures (ok : Nat → Bool) (sentences : List String) :
    speak_pipelined ok sentences = survivingUnits ok sentences ∧
    List.Sublist ((speak_pipelined ok sentences).map Prod.snd)
      ((sentences.map cleanForSpeech).filter (fun t => t ≠ "")) := by
  have he : speak_pipelined ok sentences = survivingUnits ok sentences := by
    unfold speak_pipelined survivingUnits
    rw [speakPipelinedPlays_eq]
    rfl
  refine ⟨he, ?_⟩
  rw [he]
  unfold survivingUnits
  have h1 := (List.filter_sublist (p := fun q : Nat × String => ok q.1)
    (((sentences.map cleanForSpeech).filter (fun t => t ≠ "")).enum)).map Prod.snd
  rwa [enum_map_snd] at h1

theorem rfindDot_none_spec (l : List Char) (h : rfindDot l = none) :
    ∀ j, l.get? j ≠ some '.' := by
  induction l with
  | nil => intro j; simp
  | cons c rest ih =>
    simp only [rfindDot] at h
    cases hr : rfindDot rest with
    | some k =>
      rw [hr] at h
      exact absurd h (by simp)
    | none =>
      rw [hr] at h
      by_cases hdot : c = '.'
      · rw [if_pos hdot] at h
        exact absurd h (by simp)
      · intro j
        cases j with
        | zero => simpa using hdot
        | succ j' => simpa using ih hr j'

theorem rfindDot_some_spec (l : List Char) (i : Nat) (h : rfindDot l = some i) :
    i < l.length ∧ l.get? i = some '.' ∧ ∀ j, i < j → l.get? j ≠ some '.' := by
  induction l generalizing i with
  | nil => simp [rfindDot] at h
  | cons c rest ih =>
    simp only [rfindDot] at h
    cases hr : rfindDot rest with
    | some k =>
      rw [hr] at h
      cases h
      obtain ⟨hlt, hget, hafter⟩ := ih k hr
      refine ⟨by simpa using Nat.succ_lt_succ hlt, by simpa using hget, ?_⟩
      intro j hj
      cases j with
      | zero => omega
      | succ j' =>
        simpa using hafter j' (by omega)
    | none =>
      rw [hr] at h
      by_cases hdot : c = '.'
      · rw [if_pos hdot] at h
        cases h
        refine ⟨by simp, by simpa using hdot, ?_⟩
        intro j hj
        cases j with
        | zero => omega
        | succ j' => simpa using rfindDot_none_spec rest hr j'
      · rw [if_neg hdot] at h
        exact absurd h (by simp)

theorem truncate300_length (cs : List Char) : (truncate300 cs).length ≤ 301 := by
  unfold truncate300
  split
  · rename_i hlong
    cases hfind : rfindDot (cs.take 300) with
    | some idx =>
      have hlt := (rfindDot_some_spec _ _ hfind).1
      have htk : (cs.take 300).length ≤ 300 := by
        simp [List.length_take]
      dsimp only
      by_cases hgt : idx > 100
      · rw [if_pos hgt]
        have : (cs.take (idx + 1)).length ≤ idx + 1 := by
          simp [List.length_take]
        omega
      · rw [if_neg hgt]
        simp only [List.length_append, List.length_take, List.length_singleton]
        omega
    | none =>
      dsimp only
      simp only [List.length_append, List.length_take, List.length_singleton]
      omega
  · rename_i hshort
    omega

/-- The input of the C10 counterexample: 350 asterisks, all removed by the
markdown cleanup, so the text reaching the truncation step is empty. -/
def starsInput : String := String.mk (List.replicate 350 '*')

/-- C10 counterexample: an input longer than 300 characters whose cleanup output
is neither a period-bounded cut nor a 300-character hard cut with a period - the
truncation rule applies to the cleaned text, not to the raw input. -/
theorem C10_counterexample :
    starsInput.length = 350 ∧ cleanForSpeech starsInput = "" ∧
    cleanForSpeech starsInput ≠ String.mk (starsInput.toList.take 300 ++ ['.']) := by
  refine ⟨by decide, by decide, by decide⟩

/-- C10 amended: the cleanup output never exceeds 301 characters; when the
normalized text (after markdown/emoji stripping and whitespace collapsing)
exceeds 300 characters it is cut just after the last period inside the first 300
characters when that period lies after position 100, and otherwise hard-cut at
300 characters with a period appended; `rfindDot` really is the last period. -/
theorem C10_clean_length_amended (s : String) :
    (cleanForSpeech s).length ≤ 301 ∧
    ((cleanNorm s).length ≤ 300 → cleanForSpeech s = String.mk (cleanNorm s)) ∧
    (300 < (cleanNorm s).length →
      (∀ i, rfindDot ((cleanNorm s).take 300) = some i →
        (100 < i → cleanForSpeech s = String.mk ((cleanNorm s).take (i + 1))) ∧
        (i ≤ 100 → cleanForSpeech s = String.mk ((cleanNorm s).take 300 ++ ['.']))) ∧
      (rfindDot ((cleanNorm s).take 300) = none →
        cleanForSpeech s = String.mk ((cleanNorm s).take 300 ++ ['.']))) ∧
    (∀ (l : List Char) (i : Nat), rfindDot l = some i →
      i < l.length ∧ l.get? i = some '.' ∧ ∀ j, i < j → l.get? j ≠ some '.') ∧
    (∀ l : List Char, rfindDot l = none → ∀ j, l.get? j ≠ some '.') := by
  refine ⟨?_, ?_, ?_, rfindDot_some_spec, rfindDot_none_spec⟩
  · show (truncate300 (cleanNorm s)).length ≤ 301
    exact truncate300_length _
  · intro hle
    unfold cleanForSpeech truncate300
    rw [if_neg (by omega)]
  · intro hlong
    constructor
    · intro i hfind
      constructor
      · intro hgt
        unfold cleanForSpeech truncate300
        rw [if_pos hlong, hfind]
        dsimp only
        rw [if_pos hgt]
      · intro hle
        unfold cleanForSpeech truncate300
        rw [if_pos hlong, hfind]
        dsimp only
        rw [if_neg (by omega)]
    · intro hfind
      unfold cleanForSpeech truncate300
      rw [if_pos hlong, hfind]

/-- The input of the C10 witness: a period at index 120 of the normalized text,
which exceeds the 300-character cap. -/
def longInput : String :=
  String.mk (List.replicate 120 'a' ++ ['.'] ++ List.replicate 350 'b')

/-- Witness for C10's amended theorem at a concrete overlong input. -/
theorem C10_clean_length_amended_witness :
    300 < (cleanNorm longInput).length ∧
    rfindDot ((cleanNorm longInput).take 300) = some 120 ∧ 100 < 120 ∧
    cleanForSpeech longInput = String.mk ((cleanNorm longInput).take 121) :=
  ⟨by decide, by decide, by decide,
    (((C10_clean_length_amended longInput).2.2.1 (by decide)).1 120 (by decide)).1
      (by decide)⟩

theorem dropWhile_append_full [DecidableEq α] (p : α → Bool) (x y : List α) :
    (x ++ y).dropWhile p =
      if x.dropWhile p = [] then y.dropWhile p else x.dropWhile p ++ y := by
  induction x with
  | nil => simp
  | cons a t ih =>
    simp only [List.cons_append, List.dropWhile_cons]
    split
    · rw [ih]
    · simp

theorem dropWhile_eq_nil_of_all (p : α → Bool) (w : List α)
    (hw : ∀ c ∈ w, p c = true) : w.dropWhile p = [] := by
  induction w with
  | nil => rfl
  | cons a t ih =>
    rw [List.dropWhile_cons, if_pos (hw a (by simp))]
    exact ih (fun c hc => hw c (by simp [hc]))

theorem dropWhile_ws_append (w x : List Char) (hw : ∀ c ∈ w, pySpace c = true) :
    (w ++ x).dropWhile pySpace = x.dropWhile pySpace := by
  rw [dropWhile_append_full, if_pos (dropWhile_eq_nil_of_all _ _ hw)]

/-- Right-trim of a character list. -/
def trimR (l : List Char) : List Char := (l.reverse.dropWhile pySpace).reverse

theorem trimList_eq_trimR_dropWhile (l : List Char) :
    trimList l = trimR (l.dropWhile pySpace) := rfl

theorem trimR_append_ws (x w : List Char) (hw : ∀ c ∈ w, pySpace c = true) :
    trimR (x ++ w) = trimR x := by
  unfold trimR
  rw [List.reverse_append, dropWhile_ws_append _ _ (by simpa using hw)]

theorem trimList_ws_append (w x : List Char) (hw : ∀ c ∈ w, pySpace c = true) :
    trimList (w ++ x) = trimList x := by
  unfold trimList
  rw [dropWhile_ws_append _ _ hw]

theorem trimList_append_ws (x w : List Char) (hw : ∀ c ∈ w, pySpace c = true) :
    trimList (x ++ w) = trimList x := by
  rw [trimList_eq_trimR_dropWhile, trimList_eq_trimR_dropWhile,
    dropWhile_append_full]
  split
  · rename_i hx
    rw [hx, dropWhile_eq_nil_of_all pySpace w hw]
  · exact trimR_append_ws _ _ hw

theorem trimR_concat_ne_nil (y : List Char) (c : Char) (hc : pySpace c = false) :
    trimR (y ++ [c]) ≠ [] := by
  unfold trimR
  rw [List.reverse_append]
  simp only [List.reverse_singleton, List.singleton_append, List.dropWhile_cons, hc]
  simp

theorem trimList_concat_ne_nil (x : List Char) (c : Char) (hc : pySpace c = false) :
    trimList (x ++ [c]) ≠ [] := by
  rw [trimList_eq_trimR_dropWhile, dropWhile_append_full]
  split
  · simp only [List.dropWhile_cons, hc, List.dropWhile_nil, if_false, reduceIte]
    unfold trimR
    simp [hc]
  · exact trimR_concat_ne_nil _ _ hc

theorem isTerm_not_ws (c : Char) (h : isTerm c = true) : pySpace c = false := by
  simp only [isTerm, Bool.or_eq_true, decide_eq_true_eq] at h
  rcases h with (h | h) | h <;> subst h <;> decide

theorem ws_not_isTerm (c : Char) (h : pySpace c = true) : isTerm c = false := by
  by_cases ht : isTerm c = true
  · rw [isTerm_not_ws c ht] at h
    exact absurd h (by simp)
  · simpa using ht

/-- Head-is-whitespace test for the scanner alignment invariant. -/
def headWs : List Char → Bool
  | [] => false
  | c :: _ => pySpace c

theorem filter_singleton_trim (x : List Char) :
    ([x].map trimList).filter (fun p => p ≠ []) =
      if trimList x = [] then [] else [trimList x] := by
  simp only [List.map_cons, List.map_nil, List.filter_cons, List.filter_nil]
  by_cases h : trimList x = [] <;> simp [h]

theorem scanAlign : ∀ (n : Nat) (cs : List Char), cs.length ≤ n →
    (∀ acc : List Char, ¬(headWs cs = true ∧ headIsTerm acc = true) →
      ((reSplitAux cs acc false).map trimList).filter (fun p => p ≠ []) =
        specScanAux cs acc false) ∧
    (((reSplitAux cs [] true).map trimList).filter (fun p => p ≠ []) =
      specScanAux cs [] true) := by
  intro n
  induction n with
  | zero =>
    intro cs hcs
    have hnil : cs = [] := List.length_eq_zero.mp (Nat.le_zero.mp hcs)
    subst hnil
    exact ⟨fun acc _ => filter_singleton_trim acc.reverse, filter_singleton_trim []⟩
  | succ n ih =>
    intro cs hcs
    cases cs with
    | nil =>
      exact ⟨fun acc _ => filter_singleton_trim acc.reverse, filter_singleton_trim []⟩
    | cons c rest =>
      have hrest : rest.length ≤ n := by
        simp only [List.length_cons] at hcs
        omega
      have hA : ∀ acc : List Char,
          ¬(headWs (c :: rest) = true ∧ headIsTerm acc = true) →
          ((reSplitAux (c :: rest) acc false).map trimList).filter (fun p => p ≠ []) =
            specScanAux (c :: rest) acc false := by
        intro acc hP
        have hcond : (pySpace c && headIsTerm acc) = false := by
          by_cases h1 : pySpace c = true
          · by_cases h2 : headIsTerm acc = true
            · exact absurd ⟨by simpa [headWs] using h1, h2⟩ hP
            · rw [Bool.not_eq_true] at h2
              simp [h2]
          · rw [Bool.not_eq_true] at h1
            simp [h1]
        have hsrc : reSplitAux (c :: rest) acc false = reSplitAux rest (c :: acc) false := by
          simp [reSplitAux, hcond]
        rw [hsrc]
        by_cases hBt : (isTerm c && boundaryNext rest) = true
        · obtain ⟨htc, hbn⟩ : isTerm c = true ∧ boundaryNext rest = true := by
            simpa using hBt
          have hcws : pySpace c = false := isTerm_not_ws c htc
          have hune : trimList (acc.reverse ++ [c]) ≠ [] :=
            trimList_concat_ne_nil _ _ hcws
          have hspec : specScanAux (c :: rest) acc false =
              trimList (acc.reverse ++ [c]) :: specScanAux rest [] true := by
            simp only [specScanAux, Bool.false_and, Bool.false_eq_true, if_false,
              hBt, if_true, reduceIte]
            rw [if_neg hune]
            simp
          rw [hspec]
          cases rest with
          | nil =>
            show (([(c :: acc).reverse]).map trimList).filter (fun p => p ≠ []) = _
            rw [filter_singleton_trim, List.reverse_cons, if_neg hune]
            rfl
          | cons d rest2 =>
            have hrest2 : rest2.length ≤ n := by
              simp only [List.length_cons] at hrest
              omega
            have hd : pySpace d = true := by simpa [boundaryNext] using hbn
            have hterm2 : headIsTerm (c :: acc) = true := by
              simpa [headIsTerm] using htc
            have hsrc2 : reSplitAux (d :: rest2) (c :: acc) false =
                (c :: acc).reverse :: reSplitAux rest2 [] true := by
              simp [reSplitAux, hd, hterm2]
            rw [hsrc2]
            simp only [List.map_cons, List.filter_cons, List.reverse_cons]
            rw [if_pos (by simpa using hune)]
            rw [(ih rest2 hrest2).2]
            have hskip : specScanAux (d :: rest2) [] true = specScanAux rest2 [] true := by
              simp [specScanAux, hd]
            rw [hskip]
        · have hB : (isTerm c && boundaryNext rest) = false := by
            rwa [Bool.not_eq_true] at hBt
          have hspec : specScanAux (c :: rest) acc false =
              specScanAux rest (c :: acc) false := by
            simp [specScanAux, hB]
          rw [hspec]
          apply (ih rest hrest).1
          rintro ⟨hw, ht⟩
          have htc : isTerm c = true := by simpa [headIsTerm] using ht
          have hbn : boundaryNext rest = false := by
            by_cases h : boundaryNext rest = true
            · rw [htc, h] at hB
              exact absurd hB (by simp)
            · rwa [Bool.not_eq_true] at h
          cases rest with
          | nil => simp [boundaryNext] at hbn
          | cons d rest2 =>
            simp only [headWs] at hw
            simp only [boundaryNext] at hbn
            rw [hw] at hbn
            exact absurd hbn (by simp)
      refine ⟨hA, ?_⟩
      by_cases hwc : pySpace c = true
      · have h1 : reSplitAux (c :: rest) [] true = reSplitAux rest [] true := by
          simp [reSplitAux, hwc]
        have h2 : specScanAux (c :: rest) [] true = specScanAux rest [] true := by
          simp [specScanAux, hwc, ws_not_isTerm c hwc]
        rw [h1, h2]
        exact (ih rest hrest).2
      · have hwc0 : pySpace c = false := by rwa [Bool.not_eq_true] at hwc
        have h1 : reSplitAux (c :: rest) [] true = reSplitAux (c :: rest) [] false := by
          simp [reSplitAux, hwc0]
        have h2 : specScanAux (c :: rest) [] true = specScanAux (c :: rest) [] false := by
          simp [specScanAux, hwc0]
        rw [h1, h2]
        exact hA [] (by simp [headIsTerm])

theorem specScanAux_ws_acc : ∀ (cs acc w : List Char),
    (∀ c ∈ w, pySpace c = true) →
    specScanAux cs (acc ++ w) false = specScanAux cs acc false := by
  intro cs
  induction cs with
  | nil =>
    intro acc w hw
    have hrw : trimList (acc ++ w).reverse = trimList acc.reverse := by
      rw [List.reverse_append]
      exact trimList_ws_append _ _ (by simpa using hw)
    simp only [specScanAux, hrw]
  | cons c rest ih =>
    intro acc w hw
    by_cases hBt : (isTerm c && boundaryNext rest) = true
    · have hrw : trimList ((acc ++ w).reverse ++ [c]) = trimList (acc.reverse ++ [c]) := by
        rw [List.reverse_append, List.append_assoc]
        exact trimList_ws_append _ _ (by simpa using hw)
      simp only [specScanAux, Bool.false_and, Bool.false_eq_true, if_false,
        hBt, if_true, reduceIte, hrw]
    · have hB : (isTerm c && boundaryNext rest) = false := by
        rwa [Bool.not_eq_true] at hBt
      simp only [specScanAux, Bool.false_and, Bool.false_eq_true, if_false,
        hB, reduceIte]
      have : c :: (acc ++ w) = (c :: acc) ++ w := rfl
      rw [this]
      exact ih (c :: acc) w hw

theorem specScanAux_all_ws : ∀ (w acc : List Char) (insep : Bool),
    (∀ c ∈ w, pySpace c = true) →
    specScanAux w acc insep =
      if trimList acc.reverse = [] then [] else [trimList acc.reverse] := by
  intro w
  induction w with
  | nil => intro acc insep _; rfl
  | cons d w2 ih =>
    intro acc insep hw
    have hd : pySpace d = true := hw d (by simp)
    have hw2 : ∀ c ∈ w2, pySpace c = true := fun c hc => hw c (by simp [hc])
    cases insep with
    | true =>
      have hstep : specScanAux (d :: w2) acc true = specScanAux w2 acc true := by
        simp [specScanAux, hd]
      rw [hstep, ih acc true hw2]
    | false =>
      have hstep : specScanAux (d :: w2) acc false = specScanAux w2 (d :: acc) false := by
        simp [specScanAux, hd, ws_not_isTerm d hd]
      rw [hstep, ih (d :: acc) false hw2]
      have hrw : trimList (d :: acc).reverse = trimList acc.reverse := by
        rw [List.reverse_cons]
        exact trimList_append_ws _ _ (by simpa using hd)
      rw [hrw]

theorem boundaryNext_append_ws (rest w : List Char)
    (hw : ∀ c ∈ w, pySpace c = true) :
    boundaryNext (rest ++ w) = boundaryNext rest := by
  cases rest with
  | nil =>
    cases w with
    | nil => rfl
    | cons d w2 => simp [boundaryNext, hw d (by simp)]
  | cons e rest2 => rfl

theorem specScanAux_append_ws : ∀ (cs acc : List Char) (insep : Bool) (w : List Char),
    (∀ c ∈ w, pySpace c = true) →
    specScanAux (cs ++ w) acc insep = specScanAux cs acc insep := by
  intro cs
  induction cs with
  | nil =>
    intro acc insep w hw
    rw [List.nil_append]
    exact specScanAux_all_ws w acc insep hw
  | cons c rest ih =>
    intro acc insep w hw
    by_cases h1 : (insep && pySpace c) = true
    · have hstepL : specScanAux ((c :: rest) ++ w) acc insep =
          specScanAux (rest ++ w) acc insep := by
        simp [specScanAux, h1]
      have hstepR : specScanAux (c :: rest) acc insep =
          specScanAux rest acc insep := by
        simp [specScanAux, h1]
      rw [hstepL, hstepR]
      exact ih acc insep w hw
    · have h1f : (insep && pySpace c) = false := by rwa [Bool.not_eq_true] at h1
      have hbn := boundaryNext_append_ws rest w hw
      by_cases hBt : (isTerm c && boundaryNext rest) = true
      · have hBt2 : (isTerm c && boundaryNext (rest ++ w)) = true := by
          rw [hbn]
          exact hBt
        have hstepL : specScanAux ((c :: rest) ++ w) acc insep =
            (if trimList (acc.reverse ++ [c]) = [] then []
             else [trimList (acc.reverse ++ [c])]) ++ specScanAux (rest ++ w) [] true := by
          simp only [List.cons_append, specScanAux, List.append_eq, h1f,
            Bool.false_eq_true, if_false, hBt2, if_true, reduceIte]
        have hstepR : specScanAux (c :: rest) acc insep =
            (if trimList (acc.reverse ++ [c]) = [] then []
             else [trimList (acc.reverse ++ [c])]) ++ specScanAux rest [] true := by
          simp only [specScanAux, h1f, Bool.false_eq_true, if_false,
            hBt, if_true, reduceIte]
        rw [hstepL, hstepR, ih [] true w hw]
      · have hB : (isTerm c && boundaryNext rest) = false := by
          rwa [Bool.not_eq_true] at hBt
        have hB2 : (isTerm c && boundaryNext (rest ++ w)) = false := by
          rw [hbn]
          exact hB
        have hstepL : specScanAux ((c :: rest) ++ w) acc insep =
            specScanAux (rest ++ w) (c :: acc) false := by
          simp only [List.cons_append, specScanAux, List.append_eq, h1f,
            Bool.false_eq_true, if_false, hB2, reduceIte]
        have hstepR : specScanAux (c :: rest) acc insep =
            specScanAux rest (c :: acc) false := by
          simp only [specScanAux, h1f, Bool.false_eq_true, if_false, hB, reduceIte]
        rw [hstepL, hstepR]
        exact ih (c :: acc) false w hw

theorem specScanAux_dropWhile_leading : ∀ cs : List Char,
    specScanAux cs [] false = specScanAux (cs.dropWhile pySpace) [] false := by
  intro cs
  induction cs with
  | nil => rfl
  | cons c rest ih =>
    by_cases hwc : pySpace c = true
    · have hstep : specScanAux (c :: rest) [] false = specScanAux rest [c] false := by
        simp [specScanAux, ws_not_isTerm c hwc]
      have hacc : specScanAux rest [c] false = specScanAux rest [] false := by
        have : ([] : List Char) ++ [c] = [c] := rfl
        rw [← this]
        exact specScanAux_ws_acc rest [] [c] (by simpa using hwc)
      rw [hstep, hacc, ih, List.dropWhile_cons, if_pos hwc]
    · rw [List.dropWhile_cons, if_neg hwc]

theorem specScanAux_trimList (cs : List Char) :
    specScanAux (trimList cs) [] false = specScanAux cs [] false := by
  have hR : (cs.dropWhile pySpace).reverse.takeWhile pySpace ++
      (cs.dropWhile pySpace).reverse.dropWhile pySpace =
        (cs.dropWhile pySpace).reverse :=
    List.takeWhile_append_dropWhile pySpace (cs.dropWhile pySpace).reverse
  have hL : cs.dropWhile pySpace =
      trimR (cs.dropWhile pySpace) ++
        ((cs.dropWhile pySpace).reverse.takeWhile pySpace).reverse := by
    have h2 := congrArg List.reverse hR
    rw [List.reverse_append, List.reverse_reverse] at h2
    exact h2.symm
  have hws : ∀ c ∈ ((cs.dropWhile pySpace).reverse.takeWhile pySpace).reverse,
      pySpace c = true := by
    intro c hc
    rw [List.mem_reverse] at hc
    exact List.mem_takeWhile_imp hc
  rw [trimList_eq_trimR_dropWhile, specScanAux_dropWhile_leading cs]
  conv_rhs => rw [hL]
  rw [specScanAux_append_ws _ _ _ _ hws]

theorem sentencesOf_eq_specUnits (text : String) :
    sentencesOf text = specUnits text := by
  unfold sentencesOf specUnits reSplitPieces
  rw [(scanAlign (trimList text.toList).length (trimList text.toList) le_rfl).1 []
    (by simp [headIsTerm]), specScanAux_trimList]

theorem specScanAux_ne_nil : ∀ (cs acc : List Char),
    trimList (acc.reverse ++ cs) ≠ [] → specScanAux cs acc false ≠ [] := by
  intro cs
  induction cs with
  | nil =>
    intro acc h
    rw [List.append_nil] at h
    simp only [specScanAux, if_neg h]
    simp
  | cons c rest ih =>
    intro acc h
    by_cases hBt : (isTerm c && boundaryNext rest) = true
    · have htc : isTerm c = true := by
        rcases Bool.and_eq_true_iff.mp hBt with ⟨h1, _⟩
        exact h1
      have hune : trimList (acc.reverse ++ [c]) ≠ [] :=
        trimList_concat_ne_nil _ _ (isTerm_not_ws c htc)
      simp only [specScanAux, Bool.false_and, Bool.false_eq_true, if_false,
        hBt, if_true, reduceIte, if_neg hune]
      simp
    · have hB : (isTerm c && boundaryNext rest) = false := by
        rwa [Bool.not_eq_true] at hBt
      simp only [specScanAux, Bool.false_and, Bool.false_eq_true, if_false,
        hB, reduceIte]
      apply ih (c :: acc)
      rw [List.reverse_cons, List.append_assoc]
      exact h

theorem chunkJoinF_one : ∀ (fuel : Nat) (l : List String), l.length ≤ fuel →
    chunkJoinF fuel 1 l = l := by
  intro fuel
  induction fuel with
  | zero =>
    intro l hl
    have : l = [] := List.length_eq_zero.mp (Nat.le_zero.mp hl)
    subst this
    rfl
  | succ n ih =>
    intro l hl
    cases l with
    | nil => rfl
    | cons s rest =>
      have hr : rest.length ≤ n := by
        simp only [List.length_cons] at hl
        omega
      show (if (1 : Nat) = 0 then [] else _) = s :: rest
      rw [if_neg (by omega)]
      simp only [List.take_succ_cons, List.take_zero, List.drop_succ_cons,
        List.drop_zero]
      rw [ih rest hr]
      rfl

/-- C8: with one sentence per unit, `split_by_sentence` produces exactly the
spec-side segmentation: units end at terminal punctuation followed by whitespace
or end of input, carry the text accumulated since the previous boundary up to and
including the punctuation, and empty or whitespace-only candidates are dropped. -/
theorem C8_boundary_segmentation (text : String) :
    split_by_sentence text 1 = specUnits text := by
  unfold split_by_sentence
  by_cases hs : sentencesOf text = []
  · rw [if_pos hs]
    have hstrip : pyStrip text = "" := by
      by_contra hne
      have htrim : trimList text.toList ≠ [] := by
        intro hl
        apply hne
        unfold pyStrip
        rw [hl]
      have hspec : specScanAux text.toList [] false ≠ [] := by
        apply specScanAux_ne_nil text.toList []
        simpa using htrim
      have hne2 : sentencesOf text ≠ [] := by
        rw [sentencesOf_eq_specUnits]
        unfold specUnits
        simpa using hspec
      exact hne2 hs
    rw [if_neg (by simpa using hstrip)]
    have : specUnits text = [] := by
      rw [← sentencesOf_eq_specUnits]
      exact hs
    rw [this]
  · rw [if_neg hs]
    unfold chunkJoin
    rw [chunkJoinF_one _ _ le_rfl]
    exact sentencesOf_eq_specUnits text
